import Mathlib

set_option maxHeartbeats 1000000
set_option maxRecDepth 4000

/-!
Verification of the gitstylebackup content-addressed backup engine.

The Go sources in `pkg/gitstylebackup` are shallowly embedded below: Go strings
become `List Char`, byte slices become `List Nat` (each element `< 256`), the
filesystem becomes explicit record states, and fallible operations return
`Option`.  External library primitives (SHA-1, gzip, AES-GCM) are parameters of
the embedding, constrained only by the laws the Go standard library documents
for them.
-/

/-- Character list of a string literal (Go strings are modelled as `List Char`). -/
def strL (s : String) : List Char := s.toList

/-- Decimal digit characters of `n`, most significant first, with explicit fuel
so the definition is structural.  Models the digits emitted by Go's
`fmt.Sprintf("%d", n)`. -/
def natCharsAux : Nat → Nat → List Char
  | 0, _ => []
  | fuel + 1, n =>
    if n < 10 then [Nat.digitChar n]
    else natCharsAux fuel (n / 10) ++ [Nat.digitChar (n % 10)]

/-- Decimal digit characters of `n`, most significant first. -/
def natChars (n : Nat) : List Char := natCharsAux (n + 1) n

/-- Go `fmt.Sprintf("%03d", n)`: the decimal form of `n`, left-padded with `'0'`
to a minimum width of 3. -/
def sprintf03d (n : Nat) : List Char :=
  List.replicate (3 - (natChars n).length) '0' ++ natChars n

/-- Go `fmt.Sprintf("%02d", n)`: the decimal form of `n`, left-padded with `'0'`
to a minimum width of 2. -/
def sprintf02d (n : Nat) : List Char :=
  List.replicate (2 - (natChars n).length) '0' ++ natChars n

/-- `HashToString` from `pkg/gitstylebackup/gitstylebackup.go`: starting from the
empty string, append `fmt.Sprintf("%03d", v)` for each byte `v` of the hash. -/
def HashToString (hash : List Nat) : List Char :=
  hash.foldl (fun name v => name ++ sprintf03d v) []

/-- Modelled from the spec: the three-digit zero-padded decimal representation of
one byte (its hundreds, tens and ones digits, in that order). -/
def renderByteSpec (v : Nat) : List Char :=
  [Nat.digitChar (v / 100), Nat.digitChar (v / 10 % 10), Nat.digitChar (v % 10)]

/-- Modelled from the spec: the digest rendering as the concatenation of the
three-digit blocks of its bytes, with no separators. -/
def renderDigestSpec (h : List Nat) : List Char :=
  (h.map renderByteSpec).flatten

/-- The 26 fan-out subdirectory names `00` … `25`, as created by the loop
`for i := 0; i <= 25; i++ { MakeDir(... fmt.Sprintf("%02d", i)) }`
in `BackupFiles` (and the equivalent loop in `Backup`). -/
def fanoutNames : List (List Char) := (List.range 26).map sprintf02d

/-- The fan-out bucket of a digest: the first two characters of its rendering,
`sFileHash[:2]` in `BackupFiles`. -/
def blobBucket (h : List Nat) : List Char := (HashToString h).take 2

theorem hashToString_foldl_eq (h : List Nat) (acc : List Char) :
    h.foldl (fun name v => name ++ sprintf03d v) acc = acc ++ (h.map sprintf03d).flatten := by
  induction h generalizing acc with
  | nil => simp
  | cons b t ih => simp [ih, List.append_assoc]

theorem hashToString_eq_join (h : List Nat) :
    HashToString h = (h.map sprintf03d).flatten := by
  simpa using hashToString_foldl_eq h []

theorem sprintf03d_eq_renderByteSpec : ∀ v < 256, sprintf03d v = renderByteSpec v := by
  decide

theorem renderByteSpec_length (v : Nat) : (renderByteSpec v).length = 3 := rfl

/-- C7: for every 20-byte digest, `HashToString` renders exactly the
concatenation of the three-digit zero-padded decimal representations of the
bytes, with no separators, and the result is a 60-character string. -/
theorem hash_to_string_render (h : List Nat) (hb : ∀ v ∈ h, v < 256)
    (hl : h.length = 20) :
    HashToString h = renderDigestSpec h ∧ (HashToString h).length = 60 := by
  have hmap : h.map sprintf03d = h.map renderByteSpec := by
    apply List.map_congr_left
    intro v hv
    exact sprintf03d_eq_renderByteSpec v (hb v hv)
  have heq : HashToString h = renderDigestSpec h := by
    rw [hashToString_eq_join, renderDigestSpec, hmap]
  refine ⟨heq, ?_⟩
  rw [heq, renderDigestSpec, List.length_flatten]
  have hlen : (h.map renderByteSpec).map List.length = h.map (fun _ => 3) := by
    rw [List.map_map]
    rfl
  rw [hlen, List.map_const', hl]
  decide

/-- Witness for `hash_to_string_render` at a concrete 20-byte digest. -/
theorem hash_to_string_render_witness :
    HashToString ((List.range 20).map (fun i => 12 * i + 7)) =
      renderDigestSpec ((List.range 20).map (fun i => 12 * i + 7)) ∧
    (HashToString ((List.range 20).map (fun i => 12 * i + 7))).length = 60 :=
  hash_to_string_render _ (by decide) (by decide)

theorem sprintf03d_take_two : ∀ b < 256, (sprintf03d b).take 2 = sprintf02d (b / 10) := by
  decide

theorem sprintf03d_length : ∀ b < 256, (sprintf03d b).length = 3 := by
  decide

/-- C8: the two-character bucket of a non-empty digest is the two-digit
zero-padded rendering of `firstByte / 10`, a number between 0 and 25, so every
blob path lands in one of the 26 eagerly created fan-out subdirectories. -/
theorem hash_fanout_bucket (b : Nat) (rest : List Nat) (hb : b < 256) :
    blobBucket (b :: rest) = sprintf02d (b / 10) ∧ b / 10 ≤ 25 ∧
      blobBucket (b :: rest) ∈ fanoutNames := by
  have hsplit : HashToString (b :: rest) = sprintf03d b ++ (rest.map sprintf03d).flatten := by
    rw [hashToString_eq_join]
    simp
  have htake : blobBucket (b :: rest) = sprintf02d (b / 10) := by
    rw [blobBucket, hsplit, List.take_append_of_le_length, sprintf03d_take_two b hb]
    rw [sprintf03d_length b hb]
    omega
  have hle : b / 10 ≤ 25 := by omega
  refine ⟨htake, hle, ?_⟩
  rw [htake, fanoutNames]
  exact List.mem_map_of_mem sprintf02d (List.mem_range.mpr (by omega))

/-- Witness for `hash_fanout_bucket` at a concrete digest whose first byte
is 255. -/
theorem hash_fanout_bucket_witness :
    blobBucket (255 :: List.replicate 19 0) = sprintf02d 25 ∧ (255 : Nat) / 10 ≤ 25 ∧
      blobBucket (255 :: List.replicate 19 0) ∈ fanoutNames :=
  hash_fanout_bucket 255 (List.replicate 19 0) (by decide)

/-- `strconv.Atoi` digit parsing: the decimal value of a non-empty all-digit
character list. -/
def digitsVal (cs : List Char) : Option Nat :=
  if cs = [] then none
  else if cs.all (fun c => c.isDigit) then
    some (cs.foldl (fun a c => a * 10 + (c.toNat - 48)) 0)
  else none

/-- Go `strconv.Atoi`: optional leading sign followed by decimal digits
(range overflow is not modelled; the program only passes small versions). -/
def goAtoi : List Char → Option Int
  | [] => none
  | '+' :: rest => (digitsVal rest).map (fun n => (n : Int))
  | '-' :: rest => (digitsVal rest).map (fun n => -(n : Int))
  | cs => (digitsVal cs).map (fun n => (n : Int))

/-- Abstract repository state for trim: the published manifests as
`(version, HASH: values)` pairs, and the names of the blobs in `Files/`. -/
structure Repo where
  manifests : List (Nat × List String)
  blobs : List String
deriving DecidableEq

/-- `Trim` from `pkg/gitstylebackup/gitstylebackup.go` (lines 1086-1096): it
stores the trim value in the config, validates it with `strconv.Atoi`, and
returns; no other statement exists in its body, so it never reads or mutates
the repository (in particular it never calls `TrimFiles`). -/
def Trim (r : Repo) (trimValue : String) : Repo × Option String :=
  match goAtoi (strL trimValue) with
  | none => (r, some "invalid trim version")
  | some _ => (r, none)

/-- Go map assignment `m[k] = b`, modelled extensionally on an association
list: any previous binding of `k` is dropped and the new one recorded. -/
def mapSet (m : List (String × Bool)) (k : String) (b : Bool) : List (String × Bool) :=
  (m.filter (fun p => p.1 ≠ k)) ++ [(k, b)]

/-- The `toDel[verFileHash[5:]] = true` loop body of `TrimFiles` pass 1, over
the `HASH:` values of one manifest. -/
def setAllTrue (m : List (String × Bool)) (hs : List String) : List (String × Bool) :=
  hs.foldl (fun m h => mapSet m h true) m

/-- The `toDel[verFileHash[5:]] = false` loop body of `TrimFiles` pass 2, over
the `HASH:` values of one manifest. -/
def setAllFalse (m : List (String × Bool)) (hs : List String) : List (String × Bool) :=
  hs.foldl (fun m h => mapSet m h false) m

/-- Pass 1 of `TrimFiles`: for every manifest with `testVer < trimVersion`,
mark each of its `HASH:` values `true` in `toDel`. -/
def trimPass1 (cut : Nat) (ms : List (Nat × List String)) (m0 : List (String × Bool)) :
    List (String × Bool) :=
  ms.foldl (fun m p => if p.1 < cut then setAllTrue m p.2 else m) m0

/-- Pass 2 of `TrimFiles`: for every manifest with `testVer >= trimVersion`,
mark each of its `HASH:` values `false` in `toDel`. -/
def trimPass2 (cut : Nat) (ms : List (Nat × List String)) (m0 : List (String × Bool)) :
    List (String × Bool) :=
  ms.foldl (fun m p => if cut ≤ p.1 then setAllFalse m p.2 else m) m0

/-- The keys of `toDel` whose value is `true`: the blobs the final loop of
`TrimFiles` unlinks. -/
def trueKeys (m : List (String × Bool)) : List String :=
  (m.filter (fun p => p.2)).map (fun p => p.1)

/-- The delete set computed by the two passes of `TrimFiles`, starting from the
empty map. -/
def trimDeleteSet (ms : List (Nat × List String)) (cut : Nat) : List String :=
  trueKeys (trimPass2 cut ms (trimPass1 cut ms []))

/-- `TrimFiles` from `pkg/gitstylebackup/gitstylebackup.go` (lines 440-598):
parse the trim value (`+K` keeps the maximum version minus `K`, clamped at 0),
build the delete set by the two map passes, unlink those blobs, and delete the
manifests with versions in `[1, trimVersion)`. -/
def TrimFiles (r : Repo) (trimValue : String) : Option Repo :=
  match goAtoi (strL trimValue) with
  | none => none
  | some tv =>
    let vmax : Nat := r.manifests.foldl (fun acc p => if acc < p.1 then p.1 else acc) 0
    let cutI : Int := if '+' ∈ strL trimValue then (vmax : Int) - tv else tv
    let cut : Nat := if cutI < 0 then 0 else cutI.toNat
    let del := trimDeleteSet r.manifests cut
    some { manifests := r.manifests.filter (fun p => ¬ (1 ≤ p.1 ∧ p.1 < cut)),
           blobs := r.blobs.filter (fun b => b ∉ del) }

/-- Example repository: two manifests and the two blobs they reference. -/
def trimRepoEx : Repo := ⟨[(1, ["h1"]), (2, ["h2"])], ["h1", "h2"]⟩

theorem mem_mapSet (m : List (String × Bool)) (k : String) (b : Bool)
    (k2 : String) (b2 : Bool) :
    (k2, b2) ∈ mapSet m k b ↔ (k2 = k ∧ b2 = b) ∨ (k2 ≠ k ∧ (k2, b2) ∈ m) := by
  simp only [mapSet, List.mem_append, List.mem_filter, List.mem_singleton,
    Prod.mk.injEq, decide_eq_true_eq]
  constructor
  · rintro (⟨hm, hne⟩ | ⟨hk, hb⟩)
    · exact Or.inr ⟨hne, hm⟩
    · exact Or.inl ⟨hk, hb⟩
  · rintro (⟨hk, hb⟩ | ⟨hne, hm⟩)
    · exact Or.inr ⟨hk, hb⟩
    · exact Or.inl ⟨hm, hne⟩

theorem mem_true_setAllTrue (hs : List String) (m : List (String × Bool)) (k : String) :
    (k, true) ∈ setAllTrue m hs ↔ k ∈ hs ∨ (k, true) ∈ m := by
  induction hs generalizing m with
  | nil => simp [setAllTrue]
  | cons h t ih =>
    simp only [setAllTrue, List.foldl_cons] at *
    rw [ih (mapSet m h true), mem_mapSet, List.mem_cons]
    by_cases hk : k = h
    · subst hk
      simp
    · simp [hk]

theorem mem_true_setAllFalse (hs : List String) (m : List (String × Bool)) (k : String) :
    (k, true) ∈ setAllFalse m hs ↔ k ∉ hs ∧ (k, true) ∈ m := by
  induction hs generalizing m with
  | nil => simp [setAllFalse]
  | cons h t ih =>
    simp only [setAllFalse, List.foldl_cons] at *
    rw [ih (mapSet m h false), mem_mapSet, List.mem_cons]
    by_cases hk : k = h
    · subst hk
      simp
    · simp [hk]

theorem mem_true_trimPass1 (ms : List (Nat × List String)) (cut : Nat)
    (m0 : List (String × Bool)) (k : String) :
    (k, true) ∈ trimPass1 cut ms m0 ↔
      (∃ p ∈ ms, p.1 < cut ∧ k ∈ p.2) ∨ (k, true) ∈ m0 := by
  induction ms generalizing m0 with
  | nil => simp [trimPass1]
  | cons p t ih =>
    simp only [trimPass1, List.foldl_cons] at *
    rw [ih]
    by_cases hp : p.1 < cut
    · simp only [if_pos hp, mem_true_setAllTrue, List.mem_cons]
      constructor
      · rintro (⟨q, hq, hlt, hk⟩ | hk | hm)
        · exact Or.inl ⟨q, Or.inr hq, hlt, hk⟩
        · exact Or.inl ⟨p, Or.inl rfl, hp, hk⟩
        · exact Or.inr hm
      · rintro (⟨q, hq | hq, hlt, hk⟩ | hm)
        · subst hq
          exact Or.inr (Or.inl hk)
        · exact Or.inl ⟨q, hq, hlt, hk⟩
        · exact Or.inr (Or.inr hm)
    · simp only [if_neg hp, List.mem_cons]
      constructor
      · rintro (⟨q, hq, hlt, hk⟩ | hm)
        · exact Or.inl ⟨q, Or.inr hq, hlt, hk⟩
        · exact Or.inr hm
      · rintro (⟨q, hq | hq, hlt, hk⟩ | hm)
        · subst hq
          exact absurd hlt hp
        · exact Or.inl ⟨q, hq, hlt, hk⟩
        · exact Or.inr hm

theorem mem_true_trimPass2 (ms : List (Nat × List String)) (cut : Nat)
    (m0 : List (String × Bool)) (k : String) :
    (k, true) ∈ trimPass2 cut ms m0 ↔
      (∀ p ∈ ms, cut ≤ p.1 → k ∉ p.2) ∧ (k, true) ∈ m0 := by
  induction ms generalizing m0 with
  | nil => simp [trimPass2]
  | cons p t ih =>
    simp only [trimPass2, List.foldl_cons] at *
    rw [ih]
    by_cases hp : cut ≤ p.1
    · simp only [if_pos hp, mem_true_setAllFalse, List.mem_cons]
      constructor
      · rintro ⟨hall, hnk, hm⟩
        refine ⟨?_, hm⟩
        rintro q (hq | hq) hle
        · subst hq
          exact hnk
        · exact hall q hq hle
      · rintro ⟨hall, hm⟩
        exact ⟨fun q hq hle => hall q (Or.inr hq) hle,
          hall p (Or.inl rfl) hp, hm⟩
    · simp only [if_neg hp, List.mem_cons]
      constructor
      · rintro ⟨hall, hm⟩
        refine ⟨?_, hm⟩
        rintro q (hq | hq) hle
        · subst hq
          exact absurd hle hp
        · exact hall q hq hle
      · rintro ⟨hall, hm⟩
        exact ⟨fun q hq hle => hall q (Or.inr hq) hle, hm⟩

theorem mem_trueKeys (m : List (String × Bool)) (k : String) :
    k ∈ trueKeys m ↔ (k, true) ∈ m := by
  simp only [trueKeys, List.mem_map, List.mem_filter]
  constructor
  · rintro ⟨⟨k2, b⟩, ⟨hm, hb⟩, rfl⟩
    simp only at hb
    cases b with
    | false => cases hb
    | true => exact hm
  · intro hm
    exact ⟨(k, true), ⟨hm, rfl⟩, rfl⟩

/-- C2: the trim delete set contains exactly the digests referenced by some
manifest below the cut and by no manifest at or above it; consequently every
digest referenced by a surviving manifest keeps its blob through the blob
deletion pass. -/
theorem trim_delete_set_exact (r : Repo) (cut : Nat) (k : String) :
    (k ∈ trimDeleteSet r.manifests cut ↔
      (∃ p ∈ r.manifests, p.1 < cut ∧ k ∈ p.2) ∧
      (∀ p ∈ r.manifests, cut ≤ p.1 → k ∉ p.2)) ∧
    (∀ p ∈ r.manifests, cut ≤ p.1 → k ∈ p.2 → k ∈ r.blobs →
      k ∈ r.blobs.filter (fun b => b ∉ trimDeleteSet r.manifests cut)) := by
  have hchar : k ∈ trimDeleteSet r.manifests cut ↔
      ((∀ p ∈ r.manifests, cut ≤ p.1 → k ∉ p.2) ∧
        (∃ p ∈ r.manifests, p.1 < cut ∧ k ∈ p.2)) := by
    rw [trimDeleteSet, mem_trueKeys, mem_true_trimPass2, mem_true_trimPass1]
    simp
  constructor
  · rw [hchar]
    tauto
  · intro p hp hle hk hb
    rw [List.mem_filter]
    refine ⟨hb, ?_⟩
    simp only [decide_eq_true_eq]
    rw [hchar]
    rintro ⟨hall, _⟩
    exact hall p hp hle hk

/-- Witness for `trim_delete_set_exact`: in the two-manifest repository, blob
`h1` (only referenced below the cut) is in the delete set, while blob `h2`
(referenced by the surviving manifest 2) survives the blob deletion pass. -/
theorem trim_delete_set_exact_witness :
    "h1" ∈ trimDeleteSet trimRepoEx.manifests 2 ∧
      "h2" ∈ trimRepoEx.blobs.filter
        (fun b => b ∉ trimDeleteSet trimRepoEx.manifests 2) := by
  constructor
  · exact (trim_delete_set_exact trimRepoEx 2 "h1").1.mpr (by decide)
  · exact (trim_delete_set_exact trimRepoEx 2 "h2").2 (2, ["h2"])
      (by decide) (by decide) (by decide) (by decide)

/-- C1 (code bug): the exported `Trim` operation — the one the CLI invokes as
`trim(cfg, "N")` — validates the trim value and returns success without ever
calling `TrimFiles`.  At the concrete repository with manifests 1 and 2,
`Trim _ "2"` succeeds yet manifest 1 and blob `h1` survive untouched, whereas
the `TrimFiles` algorithm the claim describes would delete them. -/
theorem trim_operation_is_noop :
    (Trim trimRepoEx "2").2 = none ∧ (Trim trimRepoEx "2").1 = trimRepoEx ∧
      (1, ["h1"]) ∈ (Trim trimRepoEx "2").1.manifests ∧
      TrimFiles trimRepoEx "2" =
        some { manifests := [(2, ["h2"])], blobs := ["h2"] } := by
  refine ⟨rfl, rfl, by decide, by decide⟩

/-- The external byte-stream primitives the engine drives: gzip compression
(`gzip.Writer` run over the whole stream), gzip decompression (`gzip.NewReader`
plus `io.Copy`; `none` is a format or corruption error), SHA-1, and AES-GCM
sealing/opening (`sealAG key nonce plain` is the ciphertext-with-tag that
`gcm.Seal` appends after the nonce; `opn` is `gcm.Open`).  The engine's code is
parametric in these; theorems that need them assume only the round-trip laws
the Go standard library documents. -/
structure Prims where
  gzipC : List Nat → List Nat
  gunzip : List Nat → Option (List Nat)
  sha1 : List Nat → List Nat
  sealAG : List Nat → List Nat → List Nat → List Nat
  opn : List Nat → List Nat → List Nat → Option (List Nat)

/-- `aes.NewCipher` accepts only 16-, 24- or 32-byte keys. -/
def validKeyLen (key : List Nat) : Bool :=
  key.length == 16 || key.length == 24 || key.length == 32

/-- `encryptData` from `pkg/gitstylebackup/gitstylebackup.go`: build the AES-GCM
cipher for the key, draw a fresh 12-byte nonce (a parameter here, since it comes
from `crypto/rand`), and return `gcm.Seal(nonce, nonce, data, nil)`, i.e. the
nonce followed by the sealed data. -/
def encryptData (P : Prims) (data key nonce : List Nat) : Option (List Nat) :=
  if validKeyLen key then some (nonce ++ P.sealAG key nonce data) else none

/-- `decryptData` from `pkg/gitstylebackup/gitstylebackup.go`: reject
ciphertexts shorter than the 12-byte nonce, split off the nonce, and open the
remainder with AES-GCM. -/
def decryptData (P : Prims) (ciphertext key : List Nat) : Option (List Nat) :=
  if validKeyLen key then
    if ciphertext.length < 12 then none
    else P.opn key (ciphertext.take 12) (ciphertext.drop 12)
  else none

/-- `CopyFileAndGZipWithEncryption` from `pkg/gitstylebackup/gitstylebackup.go`,
as the blob bytes it writes for the source bytes `src`: with a key, gzip the
whole stream and encrypt it; without, write the gzip stream directly. -/
def CopyFileAndGZipWithEncryption (P : Prims) (src : List Nat)
    (encryptionKey : Option (List Nat)) (nonce : List Nat) : Option (List Nat) :=
  match encryptionKey with
  | some key => encryptData P (P.gzipC src) key nonce
  | none => some (P.gzipC src)

/-- `ExtractGZipAndDecrypt` from `pkg/gitstylebackup/gitstylebackup.go`, as the
bytes it writes to `dst` for the blob bytes `blob`: with a key, decrypt then
gunzip; without, gunzip directly. -/
def ExtractGZipAndDecrypt (P : Prims) (blob : List Nat)
    (encryptionKey : Option (List Nat)) : Option (List Nat) :=
  match encryptionKey with
  | some key =>
    match decryptData P blob key with
    | none => none
    | some compressedData => P.gunzip compressedData
  | none => P.gunzip blob

/-- `hashGzipFile` from `pkg/gitstylebackup/gitstylebackup.go`: open the blob,
gunzip it, and stream the result through SHA-1.  No decryption step exists and
no key is taken. -/
def hashGzipFile (P : Prims) (blob : List Nat) : Option (List Nat) :=
  match P.gunzip blob with
  | none => none
  | some plain => some (P.sha1 plain)

/-- One `HASH:` line of the `VerifyFiles` scan loop: read the blob named by the
hash (`blobs` is the object store as a lookup by blob name; `none` is an open
error), recompute `hashGzipFile`, and compare the rendering to the `HASH:`
value; `false` sets `bVerifyErrors`. -/
def verifyHashLine (P : Prims) (blobs : List Char → Option (List Nat))
    (h : List Char) : Bool :=
  match blobs h with
  | none => false
  | some content =>
    match hashGzipFile P content with
    | none => false
    | some d => decide (HashToString d = h)

/-- Modelled from the spec (§4.7 Verify): read the blob, decrypt it first when
an encryption key is configured, gunzip, hash the plaintext with SHA-1, render,
and compare with the `HASH:` value. -/
def verifyHashLineSpec (P : Prims) (encryptionKey : Option (List Nat))
    (blobs : List Char → Option (List Nat)) (h : List Char) : Bool :=
  match blobs h with
  | none => false
  | some content =>
    let plain? :=
      match encryptionKey with
      | none => P.gunzip content
      | some key =>
        match decryptData P content key with
        | none => none
        | some c => P.gunzip c
    match plain? with
    | none => false
    | some plain => decide (HashToString (P.sha1 plain) = h)

/-- A concrete instantiation of the primitives, used to evaluate the engine on
explicit inputs: gzip prepends the two gzip magic bytes, SHA-1 is the identity,
and AES-GCM sealing is the identity on the plaintext.  It satisfies both
round-trip laws. -/
def primsT : Prims where
  gzipC := fun b => 31 :: 139 :: b
  gunzip := fun l =>
    match l with
    | a :: b :: rest => if a = 31 ∧ b = 139 then some rest else none
    | _ => none
  sha1 := fun b => b
  sealAG := fun _ _ m => m
  opn := fun _ _ c => some c

/-- A 32-byte key for the concrete instantiation. -/
def keyT : List Nat := List.replicate 32 0

/-- A 12-byte nonce for the concrete instantiation. -/
def nonceT : List Nat := List.replicate 12 0

/-- The blob the object store writes for source bytes `[7]` under `primsT`,
`keyT` and `nonceT`: the nonce followed by the sealed gzip stream. -/
def blobT : List Nat := nonceT ++ (31 :: 139 :: [7])

/-- An object store holding exactly `blobT` under the name `007`
(the rendering of the SHA-1 of `[7]` under `primsT`). -/
def blobsT : List Char → Option (List Nat) :=
  fun n => if n = strL "007" then some blobT else none

/-- C4 counterexample: under the concrete primitives, the object store writes
`blobT` for source bytes `[7]` with key `keyT`, and the spec's recipe
(decrypt, gunzip, hash, render) reproduces the `HASH:` value `007` — yet
`VerifyFiles` reports the blob as not verified, because it gunzips the
encrypted blob directly and never decrypts. -/
theorem verify_no_decrypt_cex :
    CopyFileAndGZipWithEncryption primsT [7] (some keyT) nonceT = some blobT ∧
    HashToString (primsT.sha1 [7]) = strL "007" ∧
    verifyHashLine primsT blobsT (strL "007") = false ∧
    verifyHashLineSpec primsT (some keyT) blobsT (strL "007") = true := by
  decide

/-- C4 (amended): for every `HASH:` line, verify recomputes the digest by
gunzipping the stored blob directly — no decryption step exists and the
encryption key is never consulted — then hashing the result with SHA-1 and
rendering it; the blob is reported verified exactly when it can be read and
gunzipped and the rendering equals the `HASH:` value. -/
theorem verify_recompute_no_decryption (P : Prims)
    (blobs : List Char → Option (List Nat)) (h : List Char) :
    verifyHashLine P blobs h = true ↔
      ∃ content plain, blobs h = some content ∧ P.gunzip content = some plain ∧
        HashToString (P.sha1 plain) = h := by
  unfold verifyHashLine hashGzipFile
  cases hb : blobs h with
  | none => simp
  | some content =>
    cases hg : P.gunzip content with
    | none => simp [hg]
    | some plain =>
      simp only [hg, decide_eq_true_eq]
      constructor
      · intro heq
        exact ⟨content, plain, rfl, hg, heq⟩
      · rintro ⟨c, p, hc, hp, he⟩
        cases hc
        rw [hg] at hp
        cases hp
        exact he

/-- C6: under the gzip and AES-GCM round-trip laws, extracting a blob produced
by the object store under the same key reproduces the original bytes
bit-for-bit, both with an encryption key and without one. -/
theorem copy_extract_roundtrip (P : Prims)
    (hgz : ∀ b, P.gunzip (P.gzipC b) = some b)
    (hopen : ∀ k n m, P.opn k n (P.sealAG k n m) = some m)
    (data key nonce : List Nat) (hkey : key.length = 32) (hnonce : nonce.length = 12) :
    (CopyFileAndGZipWithEncryption P data (some key) nonce).bind
        (fun blob => ExtractGZipAndDecrypt P blob (some key)) = some data ∧
    (CopyFileAndGZipWithEncryption P data none nonce).bind
        (fun blob => ExtractGZipAndDecrypt P blob none) = some data := by
  have hvalid : validKeyLen key = true := by
    simp [validKeyLen, hkey]
  constructor
  · have h12 : ¬ (nonce ++ P.sealAG key nonce (P.gzipC data)).length < 12 := by
      rw [List.length_append, hnonce]
      omega
    simp only [CopyFileAndGZipWithEncryption, encryptData, if_pos hvalid,
      Option.some_bind, ExtractGZipAndDecrypt, decryptData, if_neg h12]
    rw [List.take_left' hnonce, List.drop_left' hnonce, hopen]
    simp [hgz]
  · simp only [CopyFileAndGZipWithEncryption, Option.some_bind, ExtractGZipAndDecrypt]
    exact hgz data

/-- Witness for `copy_extract_roundtrip` at the concrete primitives, key,
nonce, and the source bytes `[104, 105]`. -/
theorem copy_extract_roundtrip_witness :
    (CopyFileAndGZipWithEncryption primsT [104, 105] (some keyT) nonceT).bind
        (fun blob => ExtractGZipAndDecrypt primsT blob (some keyT)) = some [104, 105] ∧
    (CopyFileAndGZipWithEncryption primsT [104, 105] none nonceT).bind
        (fun blob => ExtractGZipAndDecrypt primsT blob none) = some [104, 105] :=
  copy_extract_roundtrip primsT (fun b => rfl) (fun k n m => rfl)
    [104, 105] keyT nonceT (by decide) (by decide)

/-- The per-file events of one backup-worker iteration (`BackupFiles` lines
388-421): the walked path, the `HashFile` result (`none` = hash error), whether
the manifest `WriteString` succeeded, whether the `FileExists` probe errored,
and whether `CopyFileAndGZipWithEncryption` succeeded. -/
structure FileOutcome where
  path : List Char
  hashRes : Option (List Nat)
  writeOk : Bool
  statErr : Bool
  copyOk : Bool

/-- The repository-visible state a backup builds: the manifest records written
so far (as `(FILE, HASH)` pairs) and the blob names present in the object
store. -/
structure BackupState where
  records : List (List Char × List Char)
  blobs : List (List Char)
deriving DecidableEq

/-- One iteration of the worker loop in `BackupFiles`: a hash error skips the
file; then the `FILE/MODDATE/SIZE/HASH` record is written to the manifest; only
afterwards is the store probed and the blob copied, and a copy failure is
logged and processing continues — the record already written stays. -/
def processFile (st : BackupState) (f : FileOutcome) : BackupState :=
  match f.hashRes with
  | none => st
  | some hash =>
    let sFileHash := HashToString hash
    if f.writeOk = false then st
    else
      let st1 : BackupState := { st with records := st.records ++ [(f.path, sFileHash)] }
      if f.statErr then st1
      else if sFileHash ∈ st1.blobs then st1
      else if f.copyOk then { st1 with blobs := st1.blobs ++ [sFileHash] }
      else st1

/-- The worker loop of `BackupFiles` over the walked files, from an initial
state. -/
def BackupFilesLoop (st : BackupState) (files : List FileOutcome) : BackupState :=
  files.foldl processFile st

/-- The manifest `BackupFiles` publishes by the final rename: the loop always
terminates and the rename is unconditionally reached after `wg.Wait()`, so a
manifest is always published (given the pre-loop setup succeeded). -/
def BackupFilesPublish (files : List FileOutcome) : Option (List (List Char × List Char)) :=
  some (BackupFilesLoop ⟨[], []⟩ files).records

/-- A file whose hash and manifest write succeed but whose blob copy fails. -/
def c3file : FileOutcome :=
  { path := strL "C:\\a.txt", hashRes := some [7], writeOk := true,
    statErr := false, copyOk := false }

/-- C3 counterexample: for the file whose blob write fails, the
`FILE/MODDATE/SIZE/HASH` record is nevertheless present in the published
manifest, while the blob is absent from the object store. -/
theorem backup_record_kept_on_copy_error_cex :
    (strL "C:\\a.txt", strL "007") ∈ (BackupFilesLoop ⟨[], []⟩ [c3file]).records ∧
    strL "007" ∉ (BackupFilesLoop ⟨[], []⟩ [c3file]).blobs := by
  decide

/-- C3 (amended): a hash error or a manifest-write error logs and skips the
file, leaving state unchanged (no record, no blob); but a file whose blob copy
fails keeps its already-written manifest record while its blob is absent; and
the backup still publishes a manifest for every sequence of per-file
outcomes. -/
theorem backup_per_file_error_handling (st : BackupState) (f : FileOutcome) :
    (f.hashRes = none → processFile st f = st) ∧
    (f.writeOk = false → processFile st f = st) ∧
    (∀ hash, f.hashRes = some hash → f.writeOk = true → f.statErr = false →
      HashToString hash ∉ st.blobs → f.copyOk = false →
        (processFile st f).records = st.records ++ [(f.path, HashToString hash)] ∧
        (processFile st f).blobs = st.blobs) ∧
    (∀ files, BackupFilesPublish files = some (BackupFilesLoop ⟨[], []⟩ files).records) := by
  refine ⟨?_, ?_, ?_, fun files => rfl⟩
  · intro h
    simp [processFile, h]
  · intro h
    cases hr : f.hashRes with
    | none => simp [processFile, hr]
    | some hash => simp [processFile, hr, h]
  · intro hash hh hw hs hmem hc
    simp [processFile, hh, hw, hs, hc, hmem]

/-- Witness for `backup_per_file_error_handling` at the copy-failure file. -/
theorem backup_per_file_error_handling_witness :
    (processFile ⟨[], []⟩ c3file).records = [(strL "C:\\a.txt", strL "007")] ∧
    (processFile ⟨[], []⟩ c3file).blobs = [] := by
  have h := (backup_per_file_error_handling ⟨[], []⟩ c3file).2.2.1 [7]
    rfl rfl rfl (by decide) rfl
  refine ⟨?_, h.2⟩
  rw [h.1]
  decide

/-- The filesystem as backup's precondition phase sees it: the set of existing
directories and the set of existing regular files. -/
structure FS where
  dirs : List (List Char)
  files : List (List Char)
deriving DecidableEq

/-- `os.MkdirAll`: creates the directory if absent, succeeds silently if it
already exists. -/
def mkdirAll (fs : FS) (p : List Char) : FS :=
  if p ∈ fs.dirs then fs else { fs with dirs := fs.dirs ++ [p] }

/-- `strings.TrimRight(s, "\\")`: remove every trailing backslash. -/
def trimRightBS (s : List Char) : List Char :=
  (s.reverse.dropWhile (fun c => c = '\\')).reverse

/-- Windows `filepath.Join(a, b)` for a non-empty, already-clean directory path
`a` and a clean relative name `b`: the two joined by a single backslash (the
general `Join` also runs `Clean`, which is the identity on such arguments). -/
def bsJoin (a b : List Char) : List Char := a ++ '\\' :: b

/-- The directories `Backup` creates before checking the in-use marker
(`gitstylebackup.go` lines 1033-1053): the backup root, `Version`, `Files`,
and the 26 fan-out subdirectories. -/
def layoutDirs (root : List Char) : List (List Char) :=
  [root, bsJoin root (strL "Version"), bsJoin root (strL "Files")] ++
    (List.range 26).map (fun i => bsJoin (bsJoin root (strL "Files")) (sprintf02d i))

/-- The in-use marker path `root\InUse.txt`. -/
def inUsePath (root : List Char) : List Char := bsJoin root (strL "InUse.txt")

/-- The configuration fields `Backup` validates. -/
structure Cfg where
  backupDir : List Char
  includeDirs : List (List Char)
deriving DecidableEq

/-- `Backup` from `pkg/gitstylebackup/gitstylebackup.go` (lines 992-1083):
validate the configuration (`includePathOk` models `os.Stat` succeeding on some
include path), derive the root, create the full repository layout with
`MkdirAll`, and only then probe `InUse.txt`: a directory there is an error, a
file there aborts with the busy error; otherwise write the marker, run
`BackupFiles` (a parameter here), and remove the marker. -/
def Backup (doBackupFiles : FS → FS) (cfg : Cfg) (includePathOk : Bool) (fs : FS) :
    FS × Option String :=
  if cfg.backupDir = [] then (fs, some "backup directory is required")
  else if cfg.includeDirs = [] then (fs, some "at least one include path is required")
  else if includePathOk = false then (fs, some "no valid include paths found")
  else
    let root := trimRightBS cfg.backupDir
    let marker := inUsePath root
    let fs1 := (layoutDirs root).foldl mkdirAll fs
    if marker ∈ fs1.dirs then (fs1, some "error checking in-use file")
    else if marker ∈ fs1.files then (fs1, some "backup directory is in use")
    else
      let fs2 : FS := { fs1 with files := fs1.files ++ [marker] }
      let fs3 := doBackupFiles fs2
      ({ fs3 with files := fs3.files.filter (fun p => p ≠ marker) }, none)

theorem files_foldl_mkdirAll (L : List (List Char)) (fs : FS) :
    (L.foldl mkdirAll fs).files = fs.files := by
  induction L generalizing fs with
  | nil => rfl
  | cons d t ih =>
    rw [List.foldl_cons, ih]
    rw [mkdirAll]
    split_ifs <;> rfl

theorem mem_dirs_foldl_mkdirAll (L : List (List Char)) (fs : FS) (p : List Char) :
    p ∈ (L.foldl mkdirAll fs).dirs ↔ p ∈ fs.dirs ∨ p ∈ L := by
  induction L generalizing fs with
  | nil => simp
  | cons d t ih =>
    rw [List.foldl_cons, ih, List.mem_cons]
    rw [mkdirAll]
    split_ifs with hd
    · constructor
      · rintro (h | h)
        · exact Or.inl h
        · exact Or.inr (Or.inr h)
      · rintro (h | rfl | h)
        · exact Or.inl h
        · exact Or.inl hd
        · exact Or.inr h
    · simp only [List.mem_append, List.mem_singleton]
      constructor
      · rintro ((h | rfl) | h)
        · exact Or.inl h
        · exact Or.inr (Or.inl rfl)
        · exact Or.inr (Or.inr h)
      · rintro (h | rfl | h)
        · exact Or.inl (Or.inl h)
        · exact Or.inl (Or.inr rfl)
        · exact Or.inr h

theorem sprintf02d_length_two : ∀ i < 26, (sprintf02d i).length = 2 := by
  decide

theorem inUsePath_not_mem_layoutDirs (root : List Char) :
    inUsePath root ∉ layoutDirs root := by
  have hI : (strL "InUse.txt").length = 9 := by decide
  have hV : (strL "Version").length = 7 := by decide
  have hF : (strL "Files").length = 5 := by decide
  intro h
  simp only [layoutDirs, List.mem_append, List.mem_cons, List.mem_map,
    List.mem_range, List.not_mem_nil, or_false] at h
  rcases h with (h | h | h) | ⟨i, hi, h⟩
  · have hc := congrArg List.length h
    simp only [inUsePath, bsJoin, List.length_append, List.length_cons, hI] at hc
    omega
  · have hc := congrArg List.length h
    simp only [inUsePath, bsJoin, List.length_append, List.length_cons, hI, hV] at hc
    omega
  · have hc := congrArg List.length h
    simp only [inUsePath, bsJoin, List.length_append, List.length_cons, hI, hF] at hc
    omega
  · have hc := congrArg List.length h
    have h2 : (sprintf02d i).length = 2 := sprintf02d_length_two i hi
    simp only [inUsePath, bsJoin, List.length_append, List.length_cons, hI, hF, h2] at hc
    omega

/-- Concrete busy scenario: backup root `B`, one include path, marker present,
no directory at the marker path, empty directory set. -/
def cfg5 : Cfg := ⟨strL "B", [strL "S"]⟩

/-- The filesystem with only the in-use marker present. -/
def fs5 : FS := ⟨[], [inUsePath (strL "B")]⟩

/-- C5 counterexample: with the in-use marker present, `Backup` does return the
busy error — but the repository state is not unchanged: the root, `Version`,
`Files` and fan-out directories have all been created before the check. -/
theorem backup_busy_side_effects_cex :
    (Backup id cfg5 true fs5).2 = some "backup directory is in use" ∧
    (Backup id cfg5 true fs5).1 ≠ fs5 ∧
    strL "B" ∈ (Backup id cfg5 true fs5).1.dirs := by
  decide

/-- C5 (amended): when the in-use marker exists (as a file) and the
configuration is valid, `Backup` aborts with the busy error without creating
the marker, publishing a manifest, or touching any file — but it first creates
the backup layout directories, so the directory set grows by exactly the
layout. -/
theorem backup_busy_behavior (dbf : FS → FS) (cfg : Cfg) (ok : Bool) (fs : FS)
    (hb : cfg.backupDir ≠ []) (hi : cfg.includeDirs ≠ []) (hok : ok = true)
    (hmark : inUsePath (trimRightBS cfg.backupDir) ∈ fs.files)
    (hnd : inUsePath (trimRightBS cfg.backupDir) ∉ fs.dirs) :
    (Backup dbf cfg ok fs).2 = some "backup directory is in use" ∧
    (Backup dbf cfg ok fs).1.files = fs.files ∧
    (∀ p, p ∈ (Backup dbf cfg ok fs).1.dirs ↔
      p ∈ fs.dirs ∨ p ∈ layoutDirs (trimRightBS cfg.backupDir)) := by
  subst hok
  have hnd1 : inUsePath (trimRightBS cfg.backupDir) ∉
      ((layoutDirs (trimRightBS cfg.backupDir)).foldl mkdirAll fs).dirs := by
    rw [mem_dirs_foldl_mkdirAll]
    rintro (h | h)
    · exact hnd h
    · exact inUsePath_not_mem_layoutDirs _ h
  have hmk1 : inUsePath (trimRightBS cfg.backupDir) ∈
      ((layoutDirs (trimRightBS cfg.backupDir)).foldl mkdirAll fs).files := by
    rw [files_foldl_mkdirAll]
    exact hmark
  have htf : ¬ (true = false) := by decide
  have hEq : Backup dbf cfg true fs =
      ((layoutDirs (trimRightBS cfg.backupDir)).foldl mkdirAll fs,
        some "backup directory is in use") := by
    simp only [Backup, if_neg hb, if_neg hi, if_neg htf, if_neg hnd1, if_pos hmk1]
  rw [hEq]
  exact ⟨rfl, files_foldl_mkdirAll _ _, fun p => mem_dirs_foldl_mkdirAll _ _ _⟩

/-- Witness for `backup_busy_behavior` at the concrete busy scenario. -/
theorem backup_busy_behavior_witness :
    (Backup id cfg5 true fs5).2 = some "backup directory is in use" ∧
    (Backup id cfg5 true fs5).1.files = fs5.files ∧
    (∀ p, p ∈ (Backup id cfg5 true fs5).1.dirs ↔
      p ∈ fs5.dirs ∨ p ∈ layoutDirs (trimRightBS cfg5.backupDir)) :=
  backup_busy_behavior id cfg5 true fs5 (by decide) (by decide) rfl
    (by decide) (by decide)

/-- The manifest path `Restore` reads (lines 1398-1403): `cfg.BackupDir` (taken
verbatim, no trailing-separator strip) plus `"\\version"` plus `"\\"` plus the
version string.  `extractBackupFiles` (line 1607) builds the same path. -/
def restoreVersionFilePath (backupDir version : List Char) : List Char :=
  (backupDir ++ strL "\\version") ++ '\\' :: version

/-- The blob path `copyBackupFiles` reads (line 1558):
`state.BackupDir + "\\files\\" + hash[:2] + "\\" + hash`. -/
def restoreBlobPath (backupDir hash : List Char) : List Char :=
  backupDir ++ strL "\\files\\" ++ hash.take 2 ++ '\\' :: hash

/-- The manifest path backup publishes to: `BackupFiles` writes into
`dbBackupVersionFolder + "\\" + version`, where the version folder is the
trimmed backup root joined with `"Version"` (`main` line 199-200, and
equivalently `filepath.Join` in `Backup` line 1025). -/
def backupVersionFilePath (backupDir version : List Char) : List Char :=
  (trimRightBS backupDir ++ strL "\\Version") ++ '\\' :: version

/-- The blob path backup writes to (`BackupFiles` line 407):
`dbBackupFilesFolder + "\\" + sFileHash[:2] + "\\" + sFileHash` with the files
folder `trimmedRoot + "\\Files"`. -/
def backupBlobPath (backupDir hash : List Char) : List Char :=
  (trimRightBS backupDir ++ strL "\\Files") ++ '\\' :: (hash.take 2 ++ '\\' :: hash)

/-- C10: restore addresses `backupDir\version\v` and `backupDir\files\...`
while backup writes `backupDir\Version\v` and `backupDir\Files\...`; for any
backup directory without a trailing backslash the strings differ (they disagree
at the character after the backslash), so on a case-sensitive filesystem
restore does not address what backup produced. -/
theorem restore_backup_path_case_mismatch (backupDir version hash : List Char)
    (hclean : trimRightBS backupDir = backupDir) :
    restoreVersionFilePath backupDir version =
      backupDir ++ strL "\\version\\" ++ version ∧
    backupVersionFilePath backupDir version =
      backupDir ++ strL "\\Version\\" ++ version ∧
    restoreVersionFilePath backupDir version ≠ backupVersionFilePath backupDir version ∧
    restoreBlobPath backupDir hash ≠ backupBlobPath backupDir hash := by
  have e1 : strL "\\version" = '\\' :: 'v' :: strL "ersion" := by decide
  have e2 : strL "\\Version" = '\\' :: 'V' :: strL "ersion" := by decide
  have e3 : strL "\\version\\" = strL "\\version" ++ ['\\'] := by decide
  have e4 : strL "\\Version\\" = strL "\\Version" ++ ['\\'] := by decide
  have e5 : strL "\\files\\" = '\\' :: 'f' :: strL "iles\\" := by decide
  have e6 : strL "\\Files" = '\\' :: 'F' :: strL "iles" := by decide
  refine ⟨?_, ?_, ?_, ?_⟩
  · rw [restoreVersionFilePath, e3]
    simp [List.append_assoc]
  · rw [backupVersionFilePath, hclean, e4]
    simp [List.append_assoc]
  · rw [restoreVersionFilePath, backupVersionFilePath, hclean]
    intro hcontra
    rw [List.append_assoc, List.append_assoc, e1, e2] at hcontra
    have h2 := List.append_cancel_left hcontra
    rw [List.cons_append, List.cons_append, List.cons_append, List.cons_append]
      at h2
    injection h2 with h3 h4
    injection h4 with h5 h6
    exact absurd h5 (by decide)
  · rw [restoreBlobPath, backupBlobPath, hclean]
    intro hcontra
    rw [e5, e6] at hcontra
    simp only [List.append_assoc, List.cons_append] at hcontra
    have h2 := List.append_cancel_left hcontra
    injection h2 with h3 h4
    injection h4 with h5 h6
    exact absurd h5 (by decide)

/-- Witness for `restore_backup_path_case_mismatch` at `C:\B`, version `3` and
a concrete digest prefix. -/
theorem restore_backup_path_case_mismatch_witness :
    restoreVersionFilePath (strL "C:\\B") (strL "3") =
      strL "C:\\B" ++ strL "\\version\\" ++ strL "3" ∧
    backupVersionFilePath (strL "C:\\B") (strL "3") =
      strL "C:\\B" ++ strL "\\Version\\" ++ strL "3" ∧
    restoreVersionFilePath (strL "C:\\B") (strL "3") ≠
      backupVersionFilePath (strL "C:\\B") (strL "3") ∧
    restoreBlobPath (strL "C:\\B") (strL "007") ≠
      backupBlobPath (strL "C:\\B") (strL "007") :=
  restore_backup_path_case_mismatch (strL "C:\\B") (strL "3") (strL "007") (by decide)

/-- Go `os.IsPathSeparator` on Windows: backslash or forward slash. -/
def isSepC (c : Char) : Bool := c = '\\' || c = '/'

/-- The trailing-separator strip at the start of Go `filepath.Base`. -/
def dropTrailingSeps (s : List Char) : List Char :=
  (s.reverse.dropWhile isSepC).reverse

/-- Windows `filepath.VolumeName` length, for drive-letter volumes (`C:`);
UNC volume syntax is not modelled — the theorems below restrict to paths
without it. -/
def volLen (s : List Char) : Nat :=
  match s with
  | a :: b :: _ =>
    if b = ':' ∧ (('a' ≤ a ∧ a ≤ 'z') ∨ ('A' ≤ a ∧ a ≤ 'Z')) then 2 else 0
  | _ => 0

/-- The suffix after the last path separator (Go `Base`'s final scan). -/
def afterLastSep (s : List Char) : List Char :=
  (s.reverse.takeWhile (fun c => !(isSepC c))).reverse

/-- Go `filepath.Base` on Windows: `"."` for the empty path, else strip
trailing separators, drop the volume name, and keep everything after the last
separator; a path of only separators yields the separator itself. -/
def winBase (s : List Char) : List Char :=
  if s = [] then ['.']
  else
    let s1 := dropTrailingSeps s
    let s2 := s1.drop (volLen s1)
    let s3 := afterLastSep s2
    if s3 = [] then ['\\'] else s3

/-- Go `strings.Split(s, "\\")`: the segments of `s` between backslashes. -/
def splitBS : List Char → List (List Char)
  | [] => [[]]
  | c :: rest =>
    if c = '\\' then [] :: splitBS rest
    else
      match splitBS rest with
      | [] => [[c]]
      | h :: t => (c :: h) :: t

/-- Go `strings.HasPrefix`. -/
def leadsWith (s pat : List Char) : Bool := decide (s.take pat.length = pat)

/-- Go `strings.Contains(s, pat)`: some suffix of `s` starts with `pat`. -/
def hasSeg (pat : List Char) : List Char → Bool
  | [] => decide (pat = [])
  | c :: rest => leadsWith (c :: rest) pat || hasSeg pat rest

/-- Windows `filepath.Clean` restricted to relative backslash paths: split
into components, drop empty and `.` components, let `..` pop the previous
component (kept verbatim when nothing precedes it), rejoin with backslashes,
and yield `.` when everything cancels.  Rooted paths, `/` separators and
drive-letter volume syntax are not modelled; the theorems below apply it only
to arguments outside those cases. -/
def winCleanRel (s : List Char) : List Char :=
  let comps := splitBS s
  let out := comps.foldl (fun acc c =>
    if c = [] ∨ c = ['.'] then acc
    else if c = ['.', '.'] then
      (if acc = [] ∨ acc.getLastD [] = ['.', '.'] then acc ++ [c] else acc.dropLast)
    else acc ++ [c]) ([] : List (List Char))
  if out = [] then ['.'] else List.intercalate ['\\'] out

/-- Windows `filepath.Join` of two elements: empty elements are skipped, the
rest joined by a backslash, and the result passed through `Clean` (modelled by
`winCleanRel`; Go's special case for a bare drive-letter first element is not
modelled, so the theorems below exclude a `:` in the first element). -/
def winJoin2 (a b : List Char) : List Char :=
  if a = [] then (if b = [] then [] else winCleanRel b)
  else if b = [] then winCleanRel a
  else winCleanRel (a ++ '\\' :: b)

/-- The literal segment `\subdir\` tested by `extractBackupFiles`. -/
def subdirSeg : List Char := strL "\\subdir\\"

/-- The relative-path computation of `extractBackupFiles` (lines 1636-1649):
start from `filepath.Base(currentFile)`; if the path contains `\subdir\`,
split on backslashes and, when at least two parts exist, join the last two
parts instead. -/
def relativePathGo (currentFile : List Char) : List Char :=
  let rel := winBase currentFile
  if hasSeg subdirSeg currentFile then
    let parts := splitBS currentFile
    if 2 ≤ parts.length then
      winJoin2 (parts.getD (parts.length - 2) []) (parts.getD (parts.length - 1) [])
    else rel
  else rel

/-- Modelled from the spec (§4.7 phase 2): the target-relative path is the
basename (last path component) of the source path, unless the source path
contains the literal segment `\subdir\`, in which case the last two path
components are preserved. -/
def relativePathSpec (f : List Char) : List Char :=
  let comps := splitBS f
  if hasSeg subdirSeg f then
    List.intercalate ['\\'] (comps.drop (comps.length - 2))
  else comps.getLastD []

theorem splitBS_ne_nil (f : List Char) : splitBS f ≠ [] := by
  cases f with
  | nil => simp [splitBS]
  | cons c rest =>
    rw [splitBS]
    split_ifs
    · simp
    · cases hs : splitBS rest <;> simp

theorem splitBS_length (f : List Char) : (splitBS f).length = f.count '\\' + 1 := by
  induction f with
  | nil => simp [splitBS]
  | cons c rest ih =>
    by_cases hc : c = '\\'
    · subst hc
      rw [splitBS, if_pos rfl]
      simp [ih, List.count_cons]
    · rw [splitBS, if_neg hc]
      obtain ⟨h, t, he⟩ := List.exists_cons_of_ne_nil (splitBS_ne_nil rest)
      rw [he]
      have : (c :: rest).count '\\' = rest.count '\\' := by
        simp [List.count_cons, hc]
      rw [this, ← ih, he]
      simp

theorem takeWhile_all_eq (p : Char → Bool) (A : List Char) (h : A.all p = true) :
    A.takeWhile p = A := by
  induction A with
  | nil => rfl
  | cons a t ih =>
    simp only [List.all_cons, Bool.and_eq_true] at h
    simp [List.takeWhile_cons, h.1, ih h.2]

theorem takeWhile_append_split (p : Char → Bool) (A B : List Char) :
    (A ++ B).takeWhile p =
      if A.all p = true then A ++ B.takeWhile p else A.takeWhile p := by
  induction A with
  | nil => simp
  | cons a t ih =>
    by_cases ha : p a = true
    · by_cases ht : t.all p = true
      · simp [List.takeWhile_cons, ha, ht, ih]
      · simp [List.takeWhile_cons, ha, ht, ih]
    · simp [List.takeWhile_cons, ha]

theorem takeWhile_congr_mem (p q : Char → Bool) (l : List Char)
    (h : ∀ c ∈ l, p c = q c) :
    l.takeWhile p = l.takeWhile q := by
  induction l with
  | nil => rfl
  | cons a t ih =>
    have ha := h a (List.mem_cons_self a t)
    rw [List.takeWhile_cons, List.takeWhile_cons, ha,
      ih (fun c hc => h c (List.mem_cons_of_mem a hc))]

/-- The `!(c = '\\')` predicate used to isolate the last backslash segment. -/
def notBSlash (c : Char) : Bool := !(c = '\\')

theorem lastComp_splitBS (f : List Char) :
    (splitBS f).getLastD [] = (f.reverse.takeWhile notBSlash).reverse := by
  induction f with
  | nil => rfl
  | cons c rest ih =>
    by_cases hc : c = '\\'
    · subst hc
      rw [splitBS, if_pos rfl]
      have hL : (([] : List Char) :: splitBS rest).getLastD [] =
          (splitBS rest).getLastD [] := by
        obtain ⟨h, t, he⟩ := List.exists_cons_of_ne_nil (splitBS_ne_nil rest)
        rw [he]
        rfl
      rw [hL, ih, List.reverse_cons, takeWhile_append_split]
      have hbs : notBSlash '\\' = false := by decide
      split_ifs with hall
      · rw [takeWhile_all_eq _ _ hall]
        simp [List.takeWhile_cons, hbs]
      · rfl
    · rw [splitBS, if_neg hc]
      obtain ⟨h, t, he⟩ := List.exists_cons_of_ne_nil (splitBS_ne_nil rest)
      rw [he]
      have hcnb : notBSlash c = true := by simp [notBSlash, hc]
      cases t with
      | nil =>
        have hcount : rest.count '\\' = 0 := by
          have hl := splitBS_length rest
          rw [he] at hl
          simp at hl
          omega
        have hall : rest.reverse.all notBSlash = true := by
          rw [List.all_eq_true]
          intro x hx
          rw [List.mem_reverse] at hx
          have hxne : x ≠ '\\' := by
            intro hxx
            subst hxx
            rw [List.count_eq_zero] at hcount
            exact hcount hx
          simp [notBSlash, hxne]
        have hih := ih
        rw [he] at hih
        have hih2 : h = (rest.reverse.takeWhile notBSlash).reverse := hih
        rw [takeWhile_all_eq _ _ hall, List.reverse_reverse] at hih2
        rw [List.reverse_cons, takeWhile_append_split, if_pos hall]
        simp [List.takeWhile_cons, hcnb, hih2]
      | cons t0 t1 =>
        have hL : ((c :: h) :: t0 :: t1).getLastD [] = (splitBS rest).getLastD [] := by
          rw [he]
          rfl
        rw [hL, ih]
        have hcount : 1 ≤ rest.count '\\' := by
          have hl := splitBS_length rest
          rw [he] at hl
          simp at hl
          omega
        have hmem : '\\' ∈ rest := by
          by_contra hnm
          rw [← List.count_eq_zero] at hnm
          omega
        have hall : rest.reverse.all notBSlash = false := by
          cases hA : rest.reverse.all notBSlash
          · rfl
          · exfalso
            rw [List.all_eq_true] at hA
            have := hA '\\' (List.mem_reverse.mpr hmem)
            simp [notBSlash] at this
        rw [List.reverse_cons, takeWhile_append_split, if_neg (by simp [hall])]

theorem getLastD_mem (l : List (List Char)) (hne : l ≠ []) (d : List Char) :
    l.getLastD d ∈ l := by
  induction l generalizing d with
  | nil => exact absurd rfl hne
  | cons a t ih =>
    cases t with
    | nil => exact List.mem_singleton.mpr rfl
    | cons b t2 => exact List.mem_cons_of_mem a (ih (by simp) a)

theorem dropTrailingSeps_eq_self (f L : List Char) (b : Char)
    (hf : f = L ++ [b]) (hb : isSepC b = false) : dropTrailingSeps f = f := by
  subst hf
  rw [dropTrailingSeps, List.reverse_append]
  simp only [List.reverse_cons, List.reverse_nil, List.nil_append,
    List.singleton_append]
  rw [List.dropWhile_cons, if_neg (by simp [hb])]
  simp

theorem afterLastSep_eq_notBSlash (s : List Char) (h : '/' ∉ s) :
    afterLastSep s = (s.reverse.takeWhile notBSlash).reverse := by
  rw [afterLastSep]
  congr 1
  apply takeWhile_congr_mem
  intro c hc
  rw [List.mem_reverse] at hc
  have hcs : c ≠ '/' := fun hh => h (hh ▸ hc)
  by_cases hcb : c = '\\'
  · subst hcb
    simp [isSepC, notBSlash]
  · simp [isSepC, notBSlash, hcb, hcs]

theorem afterLastSep_append_of_mem (u v : List Char) (hm : '\\' ∈ v) :
    afterLastSep (u ++ v) = afterLastSep v := by
  rw [afterLastSep, afterLastSep, List.reverse_append, takeWhile_append_split]
  have hall : v.reverse.all (fun c => !(isSepC c)) = false := by
    cases hA : v.reverse.all (fun c => !(isSepC c))
    · rfl
    · exfalso
      rw [List.all_eq_true] at hA
      have := hA '\\' (List.mem_reverse.mpr hm)
      simp [isSepC] at this
  rw [if_neg (by simp [hall])]

theorem hasSeg_exists (pat f : List Char) (h : hasSeg pat f = true) :
    ∃ u v, f = u ++ (pat ++ v) := by
  induction f with
  | nil =>
    rw [hasSeg, decide_eq_true_eq] at h
    exact ⟨[], [], by simp [h]⟩
  | cons c rest ih =>
    rw [hasSeg, Bool.or_eq_true] at h
    rcases h with h | h
    · rw [leadsWith, decide_eq_true_eq] at h
      refine ⟨[], (c :: rest).drop pat.length, ?_⟩
      have htd := List.take_append_drop pat.length (c :: rest)
      rw [h] at htd
      rw [List.nil_append]
      exact htd.symm
    · obtain ⟨u, v, huv⟩ := ih h
      exact ⟨c :: u, v, by rw [huv]; rfl⟩

theorem drop_length_sub_two :
    ∀ (l : List (List Char)), 2 ≤ l.length →
      l.drop (l.length - 2) = [l.getD (l.length - 2) [], l.getD (l.length - 1) []]
  | [], h => by simp at h
  | [x], h => by simp at h
  | [x, y], _ => rfl
  | x :: y :: z :: t, _ => by
    have ih := drop_length_sub_two (y :: z :: t) (by simp)
    have e1 : (x :: y :: z :: t).length - 2 = ((y :: z :: t).length - 2) + 1 := by
      simp only [List.length_cons]
      omega
    have e2 : (x :: y :: z :: t).length - 1 = ((y :: z :: t).length - 1) + 1 := by
      simp only [List.length_cons]
      omega
    rw [e1, e2, List.drop_succ_cons, List.getD_cons_succ, List.getD_cons_succ]
    exact ih

theorem intercalate_two (x y : List Char) :
    List.intercalate ['\\'] [x, y] = x ++ '\\' :: y := by
  simp [List.intercalate]

theorem splitBS_no_bslash (f : List Char) : ∀ c ∈ splitBS f, '\\' ∉ c := by
  induction f with
  | nil =>
    intro c hc
    simp only [splitBS, List.mem_singleton] at hc
    subst hc
    simp
  | cons a rest ih =>
    intro c hc
    by_cases ha : a = '\\'
    · subst ha
      rw [splitBS, if_pos rfl] at hc
      rcases List.mem_cons.mp hc with rfl | hc2
      · simp
      · exact ih c hc2
    · rw [splitBS, if_neg ha] at hc
      obtain ⟨h, t, he⟩ := List.exists_cons_of_ne_nil (splitBS_ne_nil rest)
      rw [he] at hc
      have hh : h ∈ splitBS rest := by
        rw [he]
        exact List.mem_cons_self h t
      rcases List.mem_cons.mp hc with rfl | hc2
      · intro hmem
        rcases List.mem_cons.mp hmem with rfl | hmem2
        · exact ha rfl
        · exact ih h hh hmem2
      · have hc3 : c ∈ splitBS rest := by
          rw [he]
          exact List.mem_cons_of_mem h hc2
        exact ih c hc3

theorem splitBS_of_no_bslash (y : List Char) (hy : '\\' ∉ y) : splitBS y = [y] := by
  induction y with
  | nil => rfl
  | cons a t ih =>
    have ha : a ≠ '\\' := fun h => hy (h ▸ List.mem_cons_self a t)
    have ht : '\\' ∉ t := fun h => hy (List.mem_cons_of_mem a h)
    rw [splitBS, if_neg ha, ih ht]

theorem splitBS_append_bslash (x y : List Char) (hx : '\\' ∉ x) :
    splitBS (x ++ '\\' :: y) = x :: splitBS y := by
  induction x with
  | nil =>
    rw [List.nil_append, splitBS, if_pos rfl]
  | cons a t ih =>
    have ha : a ≠ '\\' := fun h => hx (h ▸ List.mem_cons_self a t)
    have ht : '\\' ∉ t := fun h => hx (List.mem_cons_of_mem a h)
    rw [List.cons_append, splitBS, if_neg ha, ih ht]

theorem winJoin2_plain (x y : List Char)
    (hxb : '\\' ∉ x) (hyb : '\\' ∉ y)
    (hxe : x ≠ []) (hye : y ≠ [])
    (hxd : x ≠ ['.']) (hxdd : x ≠ ['.', '.'])
    (hyd : y ≠ ['.']) (hydd : y ≠ ['.', '.']) :
    winJoin2 x y = x ++ '\\' :: y := by
  rw [winJoin2, if_neg hxe, if_neg hye]
  simp only [winCleanRel]
  rw [splitBS_append_bslash x y hxb, splitBS_of_no_bslash y hyb]
  simp only [List.foldl_cons, List.foldl_nil]
  rw [if_neg (not_or.mpr ⟨hxe, hxd⟩), if_neg hxdd,
    if_neg (not_or.mpr ⟨hye, hyd⟩), if_neg hydd]
  rw [List.nil_append, List.cons_append, List.nil_append,
    if_neg (by simp : ¬ ([x, y] : List (List Char)) = []), intercalate_two]

/-- C9 counterexample: for the source path `a\subdir\.\x` (backslash path,
non-empty components, no `/`, no drive prefix) the last two path components
are `.` and `x`, but `extractBackupFiles` passes them through `filepath.Join`,
whose `Clean` elides the `.` — the program yields `x`, not the preserved
`.\x` the claim requires. -/
theorem restore_relative_path_clean_cex :
    relativePathGo (strL "a\\subdir\\.\\x") = strL "x" ∧
    relativePathSpec (strL "a\\subdir\\.\\x") = strL ".\\x" ∧
    relativePathGo (strL "a\\subdir\\.\\x") ≠
      relativePathSpec (strL "a\\subdir\\.\\x") := by
  decide

/-- C9 (amended): on backslash paths with non-empty components and no stray
`/` or bare drive-prefix, the phase-2 relative path of `extractBackupFiles` is
the basename (last component) of the recorded source path, unless the path
contains the literal segment `\subdir\`, in which case it is the last two
components joined by a backslash — provided both of those components are plain
names (not `.` or `..`, and no drive-colon in the first), since `filepath.Join`
path-cleans dotted components away. -/
theorem restore_relative_path_refines (f : List Char)
    (h1 : '/' ∉ f) (h2 : [] ∉ splitBS f)
    (h3 : volLen f = 0 ∨ '\\' ∈ f.drop (volLen f))
    (hplain : hasSeg subdirSeg f = true →
      (splitBS f).getD ((splitBS f).length - 2) [] ≠ ['.'] ∧
      (splitBS f).getD ((splitBS f).length - 2) [] ≠ ['.', '.'] ∧
      (splitBS f).getD ((splitBS f).length - 1) [] ≠ ['.'] ∧
      (splitBS f).getD ((splitBS f).length - 1) [] ≠ ['.', '.'] ∧
      ':' ∉ (splitBS f).getD ((splitBS f).length - 2) []) :
    relativePathGo f = relativePathSpec f := by
  have hfne : f ≠ [] := by
    intro hf
    subst hf
    exact h2 (by simp [splitBS])
  have hlast_mem : (splitBS f).getLastD [] ∈ splitBS f :=
    getLastD_mem _ (splitBS_ne_nil f) []
  have hlast_ne : (splitBS f).getLastD [] ≠ [] := by
    intro hh
    rw [hh] at hlast_mem
    exact h2 hlast_mem
  by_cases hseg : hasSeg subdirSeg f = true
  · obtain ⟨u, v, huv⟩ := hasSeg_exists _ _ hseg
    have hc2 : subdirSeg.count '\\' = 2 := by decide
    have hcount : 2 ≤ f.count '\\' := by
      rw [huv, List.count_append, List.count_append, hc2]
      omega
    have hplen : 2 ≤ (splitBS f).length := by
      rw [splitBS_length]
      omega
    have hdrop := drop_length_sub_two (splitBS f) hplen
    have hxmem : (splitBS f).getD ((splitBS f).length - 2) [] ∈ splitBS f := by
      apply List.drop_subset ((splitBS f).length - 2)
      rw [hdrop]
      simp
    have hymem : (splitBS f).getD ((splitBS f).length - 1) [] ∈ splitBS f := by
      apply List.drop_subset ((splitBS f).length - 2)
      rw [hdrop]
      simp
    have hxne : (splitBS f).getD ((splitBS f).length - 2) [] ≠ [] := by
      intro hh
      rw [hh] at hxmem
      exact h2 hxmem
    have hyne : (splitBS f).getD ((splitBS f).length - 1) [] ≠ [] := by
      intro hh
      rw [hh] at hymem
      exact h2 hymem
    obtain ⟨hxd, hxdd, hyd, hydd, _⟩ := hplain hseg
    simp only [relativePathGo, relativePathSpec]
    rw [if_pos hseg, if_pos hseg, if_pos hplen, hdrop, intercalate_two]
    exact winJoin2_plain _ _ (splitBS_no_bslash f _ hxmem) (splitBS_no_bslash f _ hymem)
      hxne hyne hxd hxdd hyd hydd
  · have hsegf : hasSeg subdirSeg f = false := by
      cases hA : hasSeg subdirSeg f
      · rfl
      · exact absurd hA hseg
    rcases List.eq_nil_or_concat f with hnil | ⟨L, b, hLb⟩
    · exact absurd hnil hfne
    rw [List.concat_eq_append] at hLb
    have hbsep : isSepC b = false := by
      by_cases hb1 : b = '\\'
      · exfalso
        apply hlast_ne
        rw [lastComp_splitBS, hLb, hb1, List.reverse_append]
        simp only [List.reverse_cons, List.reverse_nil, List.nil_append,
          List.singleton_append]
        rw [List.takeWhile_cons, if_neg (by simp [notBSlash])]
        rfl
      · by_cases hb2 : b = '/'
        · exfalso
          apply h1
          rw [hLb, hb2]
          simp
        · simp [isSepC, hb1, hb2]
    have hdts : dropTrailingSeps f = f := dropTrailingSeps_eq_self f L b hLb hbsep
    have hals : afterLastSep (f.drop (volLen f)) = afterLastSep f := by
      rcases h3 with hv | hv
      · rw [hv, List.drop_zero]
      · have hthis := afterLastSep_append_of_mem (f.take (volLen f)) (f.drop (volLen f)) hv
        rw [List.take_append_drop] at hthis
        exact hthis.symm
    have hkey : afterLastSep (f.drop (volLen f)) = (splitBS f).getLastD [] := by
      rw [hals, afterLastSep_eq_notBSlash f h1, ← lastComp_splitBS]
    simp only [relativePathGo, relativePathSpec]
    rw [if_neg (by simp [hsegf]), if_neg (by simp [hsegf])]
    simp only [winBase]
    rw [if_neg hfne, hdts, hkey, if_neg hlast_ne]

/-- Witness for `restore_relative_path_refines` at a concrete path containing
the `\subdir\` segment. -/
theorem restore_relative_path_refines_witness :
    relativePathGo (strL "C:\\data\\subdir\\f.txt") =
      relativePathSpec (strL "C:\\data\\subdir\\f.txt") :=
  restore_relative_path_refines (strL "C:\\data\\subdir\\f.txt")
    (by decide) (by decide) (by decide) (fun _ => by decide)
